import Mathlib

/-!
Verification of the snake-agent decision core (`snake_game_agents/`):
shallow embedding of the grid world, the capped BFS path search, the
flood-fill trap analysis, the planning cascade, the tabular Q-learning
agent, and the goal-relocation routine, together with theorems settling
the specification claims.

Conventions: pixel coordinates are embedded as `Int` pairs (the Python
code manipulates pixel coordinates in steps of `SIZE = 40` on a fixed
1000x800 surface); real-valued scores are embedded as `ℚ` (the Python
floats are modelled by exact rational arithmetic); the snake is its
ordered list of segment coordinates, head first, with `length` the list
length (the Python code keeps `self.length`, `self.x`, `self.y` in sync
at every mutation).
-/

set_option maxRecDepth 100000

namespace SnakeCore

/-- Grid cell / pixel position, the Python pair `(x, y)`. -/
abbrev Cell := Int × Int

/-- Block size in pixels, the constant `SIZE = 40`. -/
def SIZE : Int := 40

/-- Surface width in pixels (the display is created as 1000x800). -/
def WIDTH : Int := 1000

/-- Surface height in pixels. -/
def HEIGHT : Int := 800

/-- The four headings, the strings "up", "down", "left", "right". -/
inductive Dir where
  | up
  | down
  | left
  | right
deriving DecidableEq, Repr

/-- Reverse heading, the `opposites` dictionary of `_is_opposite_direction`. -/
def oppositeDir : Dir → Dir
  | .left => .right
  | .right => .left
  | .up => .down
  | .down => .up

/-- Test `_is_opposite_direction`: `direction == opposites.get(self.snake.direction)`. -/
def isOppositeDir (current d : Dir) : Bool :=
  d = oppositeDir current

/-- In-bounds test `0 <= x < width and 0 <= y < height` used by
`get_neighbors` and (negated) by the wall part of `_would_collide`. -/
def inBoundsB (c : Cell) : Bool :=
  0 ≤ c.1 && c.1 < WIDTH && 0 ≤ c.2 && c.2 < HEIGHT

/-- Collision test `_would_collide(x, y)` of `Utilitybased.py`: wall
collision, or coincidence with any snake segment of index `1 ≤ i < length`
(the head itself, index 0, is excluded).  `cells` is the snake's segment
list, head first. -/
def wouldCollide (cells : List Cell) (c : Cell) : Bool :=
  !inBoundsB c || (cells.drop 1).any (fun b => b = c)

/-- The four neighbour candidates of a cell in the fixed expansion order
`(0, -SIZE), (0, SIZE), (-SIZE, 0), (SIZE, 0)` (up, down, left, right)
shared by `get_neighbors` (in `_find_path_astar`), `_calculate_mobility_score`
and `_flood_fill_count`. -/
def nbrCandidates (c : Cell) : List Cell :=
  [(c.1, c.2 - SIZE), (c.1, c.2 + SIZE), (c.1 - SIZE, c.2), (c.1 + SIZE, c.2)]

/-- Neighbour filter of `get_neighbors` in `_find_path_astar`: in bounds
and not colliding. -/
def okCellB (cells : List Cell) (c : Cell) : Bool :=
  inBoundsB c && !wouldCollide cells c

/-- Filtered neighbour list returned by `get_neighbors`. -/
def getNeighbors (cells : List Cell) (c : Cell) : List Cell :=
  (nbrCandidates c).filter (okCellB cells)

/-- Enqueue loop body of the BFS in `_find_path_astar`: for each neighbour
not yet visited, mark it visited and append `(neighbour, path + [neighbour])`
at the back of the queue. -/
def enqueueAll (π : List Cell) :
    List Cell → List (Cell × List Cell) → List Cell →
    List (Cell × List Cell) × List Cell
  | [], q, v => (q, v)
  | n :: ns, q, v =>
      if n ∈ v then enqueueAll π ns q v
      else enqueueAll π ns (q ++ [(n, π ++ [n])]) (n :: v)

/-- Main loop of the BFS in `_find_path_astar`.  `fuel` plays the role of
the remaining iteration budget `max_iterations - iterations`: each loop
iteration pops one queue entry and consumes one unit of fuel; the loop
exits with `None` when the queue empties or the budget runs out. -/
def bfsAux (cells : List Cell) (goal : Cell) :
    Nat → List (Cell × List Cell) → List Cell → Option (List Cell)
  | 0, _, _ => none
  | _ + 1, [], _ => none
  | fuel + 1, (c, π) :: rest, visited =>
      if c = goal then some π
      else
        let s := enqueueAll π (getNeighbors cells c) rest visited
        bfsAux cells goal fuel s.1 s.2

/-- Iteration cap `max_iterations = 200` of `_find_path_astar`. -/
def MAX_ITERATIONS : Nat := 200

/-- The path search `_find_path_astar(start_x, start_y, goal_x, goal_y)`
(despite its name a plain breadth-first search): the queue starts with
`(start, [(start)])`, `visited = {start}`, and at most 200 iterations run. -/
def findPathAstar (cells : List Cell) (start goal : Cell) : Option (List Cell) :=
  bfsAux cells goal MAX_ITERATIONS [(start, [start])] [start]

/-- Large fuel bound under which the BFS loop provably runs to natural
completion (queue exhaustion or goal found): every loop iteration pops one
entry, every enqueued cell is distinct and either the start or in bounds,
and there are at most 1000 * 800 in-bounds integer cells, so at most
800001 entries are ever enqueued. -/
def FULL_FUEL : Nat := 800002

/-- Reference run of the same BFS with the iteration cap lifted
(fuel large enough that it never bites): the uncapped search the spec
calls the brute-force BFS oracle. -/
def bfsFull (cells : List Cell) (start goal : Cell) : Option (List Cell) :=
  bfsAux cells goal FULL_FUEL [(start, [start])] [start]

/-- One 4-connected step: `b` is one of the four neighbour candidates of `a`. -/
def adjacent (a b : Cell) : Prop := b ∈ nbrCandidates a

instance : DecidableRel adjacent := fun a b =>
  inferInstanceAs (Decidable (b ∈ nbrCandidates a))

/-- Valid path of the 4-connected free-cell graph searched by
`_find_path_astar`: starts at `start`, ends at `goal`, consecutive cells
are 4-adjacent, and every cell after the first passes the `get_neighbors`
filter (in bounds and not colliding).  The start cell itself is not
filtered, exactly as in the code. -/
def IsPathTo (cells : List Cell) (start goal : Cell) (p : List Cell) : Prop :=
  p.head? = some start ∧ p.getLast? = some goal ∧
  List.Chain' adjacent p ∧ ∀ c ∈ p.tail, okCellB cells c = true

/-- Boolean adjacency-chain check, an executable mirror of
`List.Chain' adjacent` usable with kernel evaluation. -/
def chainAdjB : List Cell → Bool
  | [] => true
  | [_] => true
  | a :: b :: t => decide (adjacent a b) && chainAdjB (b :: t)

/-- Executable mirror of `IsPathTo`. -/
def isPathToB (cells : List Cell) (start goal : Cell) (p : List Cell) : Bool :=
  decide (p.head? = some start) && decide (p.getLast? = some goal) &&
    chainAdjB p && p.tail.all (okCellB cells)

/-- Goal reachable from the head over the 4-connected free-cell graph. -/
def Reachable (cells : List Cell) (start goal : Cell) : Prop :=
  ∃ p, IsPathTo cells start goal p

/-- The 200-iteration cap cut the capped search short: the capped run
returns nothing although the goal is reachable. -/
def CapHit (cells : List Cell) (start goal : Cell) : Prop :=
  findPathAstar cells start goal = none ∧ Reachable cells start goal

/-- Snake state: current heading plus the ordered segment list, head
first.  The Python class keeps `self.length`, `self.x` and `self.y`
in sync at every mutation, so `length` is embedded as `cells.length`
and `x[i], y[i]` as `cells[i]`. -/
structure Snake where
  direction : Dir
  cells : List Cell

/-- World snapshot the decision code reads each tick: the snake and the
apple cell. -/
structure GState where
  snake : Snake
  apple : Cell

/-- Head position `(self.snake.x[0], self.snake.y[0])`. -/
def headCell (g : GState) : Cell := g.snake.cells.headI

/-- Heading update `_execute_move` / `Snake.move_left` ...: the new
heading is applied unless it is the direct reverse of the current one
(the U-turn guard in each `move_*` method). -/
def executeMove (s : Snake) (d : Dir) : Snake :=
  if s.direction = oppositeDir d then s else { s with direction := d }

/-- Loop body of `_flood_fill_count`: pop `(c, depth)`; stop once `count`
reaches `max_depth`; skip already-visited or too-deep entries and blocked
cells; otherwise mark visited, count the cell and enqueue its not-yet
visited neighbour candidates with depth one larger. -/
def floodFillAux (cells : List Cell) (maxDepth : Nat) :
    Nat → List (Cell × Nat) → List Cell → Nat → Nat
  | 0, _, _, count => count
  | _ + 1, [], _, count => count
  | fuel + 1, (c, d) :: rest, visited, count =>
      if maxDepth ≤ count then count
      else if c ∈ visited ∨ maxDepth < d then
        floodFillAux cells maxDepth fuel rest visited count
      else if wouldCollide cells c then
        floodFillAux cells maxDepth fuel rest visited count
      else
        floodFillAux cells maxDepth fuel
          (rest ++ (nbrCandidates c).filterMap
            (fun n => if n ∈ c :: visited then none else some (n, d + 1)))
          (c :: visited) (count + 1)

/-- Flood fill `_flood_fill_count(start_x, start_y, max_depth)`.  The
fuel `4 * maxDepth + 2` is an upper bound on the number of loop
iterations: at most `maxDepth` iterations count a cell, each enqueues at
most 4 entries, one entry starts the queue, and every iteration pops one
entry, so the loop runs at most `1 + 4 * maxDepth + 1` times and the fuel
never cuts it short. -/
def floodFillCount (cells : List Cell) (start : Cell) (maxDepth : Nat) : Nat :=
  floodFillAux cells maxDepth (4 * maxDepth + 2) [(start, 0)] [] 0

/-- Arithmetic core of `_calculate_trap_avoidance_score`: given the snake
length and the flood-fill result, return 100 if the count reaches
`length + 5` (`min_required_space`), else `count / (length + 5) * 100`. -/
def trapScoreFromCount (len count : Nat) : ℚ :=
  if len + 5 ≤ count then 100 else (count : ℚ) / ((len : ℚ) + 5) * 100

/-- Trap-avoidance sub-score `_calculate_trap_avoidance_score(x, y)`:
the flood fill runs with its default cap `max_depth = 50` (the call site
passes no cap), and the result is compared against `length + 5`. -/
def calculateTrapAvoidanceScore (g : GState) (c : Cell) : ℚ :=
  trapScoreFromCount g.snake.cells.length (floodFillCount g.snake.cells c 50)

/-- Modelled from the spec: the trap-avoidance sub-score as the spec
describes it — "reachable_count(candidate, cap = bodyLength + margin) /
(bodyLength + margin)", clamped to [0,100] — with the margin instantiated
to the code's buffer of 5.  This definition follows the spec's words and
exists only to be compared against `calculateTrapAvoidanceScore`, which
is the embedding of the code. -/
def trapScoreSpecClaim (g : GState) (c : Cell) : ℚ :=
  min 100 (max 0
    ((floodFillCount g.snake.cells c (g.snake.cells.length + 5) : ℚ) /
      ((g.snake.cells.length + 5 : ℕ) : ℚ) * 100))

/-- Direction list and per-direction deltas zipped in `_emergency_move`:
up, down, left, right. -/
def dirDeltas : List (Dir × Cell) :=
  [(.up, (0, -SIZE)), (.down, (0, SIZE)), (.left, (-SIZE, 0)), (.right, (SIZE, 0))]

/-- Emergency fallback `_emergency_move(head_x, head_y)`: first
non-reversing direction whose target cell is collision free; failing
that, the first non-reversing direction outright (its comment: game over
is imminent, make the least bad move).  The result is the direction
passed to `_execute_move`; `none` would mean no `_execute_move` call. -/
def emergencyMove (g : GState) : Option Dir :=
  match dirDeltas.find? (fun p =>
      !isOppositeDir g.snake.direction p.1 &&
      !wouldCollide g.snake.cells
        ((headCell g).1 + p.2.1, (headCell g).2 + p.2.2)) with
  | some p => some p.1
  | none =>
      (dirDeltas.find? (fun p => !isOppositeDir g.snake.direction p.1)).map
        (fun p => p.1)

/-- Scored candidate list `_evaluate_moves(head_x, head_y, apple_x,
apple_y)`: the four moves in the order left, right, up, down; reversing
moves and colliding moves are skipped; survivors are paired with their
`_calculate_move_score`.  The scoring function is passed as a parameter
`score` because `_calculate_move_score` mixes in a Euclidean-distance
term computed with floating-point `math.sqrt`; every claim settled here
holds for an arbitrary score, so no claim depends on its numerics. -/
def evaluateMoves (score : Cell → ℚ) (g : GState) : List (Dir × ℚ) :=
  let hd := headCell g
  let moves : List (Dir × Cell) :=
    [(.left, (hd.1 - SIZE, hd.2)), (.right, (hd.1 + SIZE, hd.2)),
     (.up, (hd.1, hd.2 - SIZE)), (.down, (hd.1, hd.2 + SIZE))]
  (moves.filter (fun p =>
      !isOppositeDir g.snake.direction p.1 &&
      !wouldCollide g.snake.cells p.2)).map (fun p => (p.1, score p.2))

/-- Python `max(possible_moves, key=lambda x: x[1])`: the first entry of
maximal score (`max` keeps the earliest maximum). -/
def maxByScore : List (Dir × ℚ) → Option (Dir × ℚ)
  | [] => none
  | x :: xs => some (xs.foldl (fun b y => if b.2 < y.2 then y else b) x)

/-- Direction from one cell toward another, `_get_direction_to_position`:
horizontal difference wins, `None` only when the cells coincide. -/
def getDirectionToPosition (f t : Cell) : Option Dir :=
  let dx := t.1 - f.1
  let dy := t.2 - f.2
  if dx < 0 then some .left
  else if 0 < dx then some .right
  else if dy < 0 then some .up
  else if 0 < dy then some .down
  else none

/-- Per-tick decision cascade `auto_control`: try the first step of the
BFS path; if no direction results, fall through to the best-scored safe
move; if no candidate survives, fall through to `_emergency_move`.  The
returned value is the direction handed to `_execute_move`; `none` would
mean the tick ended with no `_execute_move` call at all. -/
def autoControl (score : Cell → ℚ) (g : GState) : Option Dir :=
  match (match findPathAstar g.snake.cells (headCell g) g.apple with
    | some path =>
        if 1 < path.length then
          match path.get? 1 with
          | some nxt => getDirectionToPosition (headCell g) nxt
          | none => none
        else none
    | none => none : Option Dir) with
  | some d => some d
  | none =>
      match maxByScore (evaluateMoves score g) with
      | some p => some p.1
      | none => emergencyMove g

/-- Cell grid scanned by `Apple.move` for free positions:
`range(0, screen_width - SIZE, SIZE)` x `range(0, screen_height - SIZE,
SIZE)` on the 1000x800 surface, so x runs over 0, 40, ..., 920 and y over
0, 40, ..., 720 (the scan misses the last column and row; the claims here
do not depend on that). -/
def scanPositions : List Cell :=
  (List.range 24).flatMap (fun i =>
    (List.range 19).map (fun j => ((40 * i : Int), (40 * j : Int))))

/-- Valid goal positions computed by `Apple.move`: scanned cells not
occupied by the snake. -/
def appleValidPositions (snakePositions : List Cell) : List Cell :=
  scanPositions.filter (fun p => p ∉ snakePositions)

/-- Goal relocation `Apple.move(snake_positions)` with the two random
draws injected: `choice` selects from the valid positions
(`random.choice`), and `ri, rj` are the `random.randint(0, grid_width-1)`
/ `randint(0, grid_height-1)` draws of the exhaustion fallback.  The
caller receives only the new cell; the function has no other output. -/
def appleMove (snakePositions : List Cell) (choice ri rj : Nat) : Cell :=
  if appleValidPositions snakePositions ≠ [] then
    (appleValidPositions snakePositions).getD
      (choice % (appleValidPositions snakePositions).length) (0, 0)
  else
    ((ri : Int) * SIZE, (rj : Int) * SIZE)

/-- Growth `Snake.increase_length` of `Utilitybased.py` (and
`Modelbased.py`): `self.length += 1; self.x.append(self.x[-1]);
self.y.append(self.y[-1])` — a new tail segment at the current tail
position. -/
def increaseLength (s : Snake) : Snake :=
  { s with cells := s.cells ++ [s.cells.getLastD (0, 0)] }

/-- Growth `Snake.increase_length` of `Learning.py` and
`Learning/Learning2.py`: `self.length += 1; self.x.append(-1);
self.y.append(-1)` — a placeholder segment at (-1, -1). -/
def increaseLengthL (cells : List Cell) : List Cell :=
  cells ++ [(-1, -1)]

/-- Point test `Game.is_collision` of `Utilitybased.py`: exact
coordinate coincidence. -/
def isCollisionU (x1 y1 x2 y2 : Int) : Bool :=
  x1 = x2 && y1 = y2

/-- Self-collision check `Game.self_collision` of `Utilitybased.py`:
`False` outright for length < 4, else the head is compared against the
segments of index `4 <= i < length` (`for i in range(4, self.snake.length)`,
embedded as `cells.drop 4`). -/
def selfCollisionU (s : Snake) : Bool :=
  if s.cells.length < 4 then false
  else (s.cells.drop 4).any (fun c =>
    isCollisionU s.cells.headI.1 s.cells.headI.2 c.1 c.2)

/-- Box-overlap test `Game.is_collision` of `Learning.py`:
`x1 >= x2 and x1 < x2 + SIZE and y1 >= y2 and y1 < y2 + SIZE`. -/
def isCollisionL (x1 y1 x2 y2 : Int) : Bool :=
  x2 ≤ x1 && x1 < x2 + SIZE && y2 ≤ y1 && y1 < y2 + SIZE

/-- Self-collision check `Game.self_collision` of `Learning.py`: the head
is compared (by box overlap) against the segments of index
`3 <= i < length` (`for i in range(3, self.snake.length)`, embedded as
`cells.drop 3`).  `Learning2.py` runs the same loop inside
`is_collision`, with exact equality instead of box overlap. -/
def selfCollisionL (cells : List Cell) : Bool :=
  (cells.drop 3).any (fun c =>
    isCollisionL cells.headI.1 cells.headI.2 c.1 c.2)

/-- Discretized learning state `(dx, dy, dir_code)` of
`QLearningAgent.get_state`. -/
abbrev QState := Int × Int × Int

/-- Q-table: mapping from discretized state to the action-value vector
(a `np.zeros(4)`-initialized array), embedded as an association list with
first-match lookup, which agrees with the Python dict on duplicate-free
tables and is total on all lists. -/
abbrev QTable := List (QState × List ℚ)

/-- Canonical action order `["left", "right", "up", "down"]` passed to
`QLearningAgent`. -/
def actions : List Dir := [.left, .right, .up, .down]

/-- Dictionary lookup `q_table[state]` / `state in q_table`, first match. -/
def getQ : QTable → QState → Option (List ℚ)
  | [], _ => none
  | (k, w) :: t, s => if k = s then some w else getQ t s

/-- Dictionary assignment `q_table[state] = v` (and the in-place
mutation of a stored vector): replace the first binding of the key, or
append a new binding at the end as Python dict insertion does. -/
def setQ : QTable → QState → List ℚ → QTable
  | [], s, v => [(s, v)]
  | (k, w) :: t, s, v => if k = s then (s, v) :: t else (k, w) :: setQ t s v

/-- Fresh action-value vector `np.zeros(len(self.actions))`. -/
def zeros4 : List ℚ := List.replicate 4 0

/-- Vector maximum `np.max` (our vectors are never empty; 0 on the
unreachable empty case keeps the function total). -/
def npMax : List ℚ → ℚ
  | [] => 0
  | x :: xs => xs.foldl max x

/-- Scanning helper of `npArgmax`: keep the index of the first strict
maximum seen so far. -/
def npArgmaxAux : List ℚ → ℚ → Nat → Nat → Nat
  | [], _, _, best => best
  | x :: xs, bv, i, best =>
      if bv < x then npArgmaxAux xs x (i + 1) i
      else npArgmaxAux xs bv (i + 1) best

/-- Index of the maximum, `np.argmax`: the first occurrence of the
maximal value wins. -/
def npArgmax : List ℚ → Nat
  | [] => 0
  | x :: xs => npArgmaxAux xs x 1 0

/-- Action selection `QLearningAgent.choose_action(state)` (identical in
`Learning.py` and `Learning2.py`) with the two random draws injected:
`randVal` is the `np.random.rand()` draw and `randChoice` the index drawn
by `np.random.choice(self.actions)`.  A state absent from the table
routes to the random branch exactly like an epsilon hit. -/
def chooseAction (t : QTable) (s : QState) (ε : ℚ) (randVal : ℚ)
    (randChoice : Fin 4) : Dir :=
  if randVal < ε ∨ (getQ t s).isNone then
    actions.getD randChoice .left
  else
    actions.getD (npArgmax ((getQ t s).getD zeros4)) .left

/-- Lazy zero-vector initialization `if state not in self.q_table:
self.q_table[state] = np.zeros(len(self.actions))` at the top of `learn`. -/
def lazyInit (t : QTable) (s : QState) : QTable :=
  if (getQ t s).isNone then setQ t s zeros4 else t

/-- Lazy initialization of the (possibly terminal) next state:
`if next_state is not None and next_state not in self.q_table: ...`. -/
def lazyInitNext (t : QTable) : Option QState → QTable
  | none => t
  | some s2 => lazyInit t s2

/-- Update target of `learn`: the reward alone on a terminal transition
(`next_state is None`), else `reward + gamma * np.max(q_table[next_state])`. -/
def learnTarget (γ r : ℚ) (t2 : QTable) : Option QState → ℚ
  | none => r
  | some s2 => r + γ * npMax ((getQ t2 s2).getD zeros4)

/-- Value update `QLearningAgent.learn(state, action, reward, next_state)`
(identical logic in `Learning.py` lines 141-155 and `Learning2.py` lines
132-141): lazily insert zero vectors for unseen `state` and (non-terminal)
`next_state`; `predict = Q[s][a]`; `target = r` when `next_state is None`
else `r + gamma * np.max(Q[s'])`; then `Q[s][a] += lr * (target - predict)`. -/
def learn (lr γ : ℚ) (t : QTable) (s : QState) (a : Dir) (r : ℚ)
    (nextState : Option QState) : QTable :=
  let t2 := lazyInitNext (lazyInit t s) nextState
  let idx := actions.indexOf a
  let vec := (getQ t2 s).getD zeros4
  let predict := vec.getD idx 0
  setQ t2 s (vec.set idx (predict + lr * (learnTarget γ r t2 nextState - predict)))

/-- Concrete snapshot in which every non-reversing heading of the
down-moving snake is blocked by a body segment while the direct-reverse
cell (40, 0) is free. -/
def gEmergency : GState :=
  ⟨⟨.down, [(40, 40), (40, 80), (0, 40), (80, 40)]⟩, (200, 200)⟩

/-- Concrete snapshot for the emergency-stage witness: a left-moving
snake in the top-left corner, with walls blocking up and left and a body
segment blocking down. -/
def gEmergencyW : GState :=
  ⟨⟨.left, [(0, 0), (0, 40)]⟩, (200, 200)⟩

/-- Concrete 46-segment snake (a contiguous, duplicate-free body filling
the two top rows), used to exhibit the divergence between the code's
constant flood-fill cap 50 and the spec's cap bodyLength + margin. -/
def snake46 : Snake :=
  ⟨.left, [(120, 40), (160, 40), (200, 40), (240, 40), (280, 40), (320, 40),
    (360, 40), (400, 40), (440, 40), (480, 40), (520, 40), (560, 40),
    (600, 40), (640, 40), (680, 40), (720, 40), (760, 40), (800, 40),
    (840, 40), (880, 40), (920, 40), (960, 40), (960, 0), (920, 0),
    (880, 0), (840, 0), (800, 0), (760, 0), (720, 0), (680, 0), (640, 0),
    (600, 0), (560, 0), (520, 0), (480, 0), (440, 0), (400, 0), (360, 0),
    (320, 0), (280, 0), (240, 0), (200, 0), (160, 0), (120, 0), (80, 0),
    (40, 0)]⟩

/-- Snapshot containing the 46-segment snake. -/
def g46 : GState := ⟨snake46, (120, 120)⟩

/-- Explicit free path from (40, 40) to the far corner (960, 760) on the
empty board: straight right along y = 40, then straight down along
x = 960.  Witnesses reachability in the BFS-cap counterexample. -/
def farCornerPath : List Cell :=
  ((List.range 24).map fun i => ((40 + 40 * i : Int), (40 : Int))) ++
    ((List.range 18).map fun j => ((960 : Int), (80 + 40 * j : Int)))

/-- Valid search path from the start cell: begins at `start`, consecutive
cells 4-adjacent, every cell after the first in bounds and collision
free.  `IsPathTo` is exactly `ValidQ` plus the endpoint condition. -/
def ValidQ (cells : List Cell) (start : Cell) (p : List Cell) : Prop :=
  p.head? = some start ∧ List.Chain' adjacent p ∧
    ∀ c ∈ p.tail, okCellB cells c = true

/-- Tightness of a BFS queue entry `(c, π)`: the recorded path to `c` is
no longer than the position (plus one) of `c` on any valid path — the
key optimality property BFS maintains for everything it enqueues. -/
def EntryTight (cells : List Cell) (start : Cell)
    (e : Cell × List Cell) : Prop :=
  ∀ (qq : List Cell) (i : Nat), ValidQ cells start qq →
    qq.get? i = some e.1 → e.2.length ≤ i + 1

/-- The finite set of in-bounds integer cells, 1000 x 800 of them. -/
def boundsFinset : Finset Cell :=
  Finset.Ico (0 : Int) 1000 ×ˢ Finset.Ico (0 : Int) 800

/-- Invariant of the BFS loop in `_find_path_astar`, relating the queue
`q`, the visited list `v` and the (ghost) list `P` of already-expanded
cells. -/
structure BfsInv (cells : List Cell) (start goal : Cell)
    (q : List (Cell × List Cell)) (v P : List Cell) : Prop where
  entriesOk : ∀ e ∈ q, ValidQ cells start e.2 ∧
    e.2.getLast? = some e.1 ∧ e.1 ∈ v
  entriesTight : ∀ e ∈ q, EntryTight cells start e
  sorted : List.Chain' (fun a b : Cell × List Cell =>
    a.2.length ≤ b.2.length) q
  spread : ∀ e1 ∈ q, ∀ e2 ∈ q, e2.2.length ≤ e1.2.length + 1
  startMem : start ∈ v
  visPart : ∀ z ∈ v, z ∈ P ∨ ∃ π, (z, π) ∈ q
  procGoal : goal ∉ P
  procClosed : ∀ p ∈ P, ∀ n ∈ getNeighbors cells p, n ∈ v
  nodupV : v.Nodup
  vBound : ∀ z ∈ v, z = start ∨ inBoundsB z = true

/-! ## Shared helper lemmas -/

/-- Lookup after assignment at the same key. -/
theorem getQ_setQ_self (t : QTable) (s : QState) (v : List ℚ) :
    getQ (setQ t s v) s = some v := by
  induction t with
  | nil => simp [setQ, getQ]
  | cons p t ih =>
      obtain ⟨k, w⟩ := p
      by_cases h : k = s
      · simp [setQ, h, getQ]
      · simp [setQ, h, getQ, ih]

/-- Lookup after assignment at a different key. -/
theorem getQ_setQ_ne (t : QTable) (s z : QState) (v : List ℚ) (h : z ≠ s) :
    getQ (setQ t s v) z = getQ t z := by
  induction t with
  | nil => simp [setQ, getQ, Ne.symm h]
  | cons p t ih =>
      obtain ⟨k, w⟩ := p
      by_cases hk : k = s
      · subst hk
        simp [setQ, getQ, Ne.symm h]
      · simp only [setQ, if_neg hk]
        by_cases hz : k = z
        · simp [getQ, hz]
        · simp [getQ, hz, ih]

/-- Lazily inserting a zero vector for a possibly-missing key does not
change the table viewed as a total map with default value `zeros4`. -/
theorem getQ_lazyInit_view (t : QTable) (s z : QState) :
    (getQ (lazyInit t s) z).getD zeros4 = (getQ t z).getD zeros4 := by
  unfold lazyInit
  cases h : getQ t s with
  | some v => simp [h]
  | none =>
      by_cases hz : z = s
      · subst hz
        simp [h, getQ_setQ_self]
      · simp [h, getQ_setQ_ne t s z zeros4 hz]

/-- Lazy initialization of the next state preserves the default-zero
view of the table. -/
theorem getQ_lazyInitNext_view (t : QTable) (ns : Option QState) (z : QState) :
    (getQ (lazyInitNext t ns) z).getD zeros4 = (getQ t z).getD zeros4 := by
  cases ns with
  | none => rfl
  | some s2 => exact getQ_lazyInit_view t s2 z

/-- After lazy initialization the key is present and holds its
default-zero view. -/
theorem getQ_lazyInit_self (t : QTable) (s : QState) :
    getQ (lazyInit t s) s = some ((getQ t s).getD zeros4) := by
  unfold lazyInit
  cases h : getQ t s with
  | some v => simp [h]
  | none => simp [h, getQ_setQ_self]

/-- Lazy initialization never changes an existing binding. -/
theorem getQ_lazyInit_of_some (t : QTable) (z s : QState) (v : List ℚ)
    (h : getQ t s = some v) : getQ (lazyInit t z) s = some v := by
  unfold lazyInit
  by_cases hz : z = s
  · subst hz
    simp [h]
  · cases hq : getQ t z with
    | some w => simp [hq, h]
    | none => simp [hq, getQ_setQ_ne t z s zeros4 (Ne.symm hz), h]

/-- Lazy initialization of the next state never changes an existing
binding. -/
theorem getQ_lazyInitNext_of_some (t : QTable) (ns : Option QState)
    (s : QState) (v : List ℚ) (h : getQ t s = some v) :
    getQ (lazyInitNext t ns) s = some v := by
  cases ns with
  | none => exact h
  | some s2 => exact getQ_lazyInit_of_some t s2 s v h

/-- Successful lookup exhibits a stored binding. -/
theorem getQ_some_mem (t : QTable) (s : QState) (v : List ℚ)
    (h : getQ t s = some v) : (s, v) ∈ t := by
  induction t with
  | nil => simp [getQ] at h
  | cons p tl ih =>
      obtain ⟨k, w⟩ := p
      by_cases hk : k = s
      · subst hk
        simp only [getQ, eq_self_iff_true, if_true, Option.some.injEq] at h
        subst h
        exact List.mem_cons_self _ _
      · simp only [getQ, if_neg hk] at h
        exact List.mem_cons_of_mem _ (ih h)

/-- Reading an index just written yields the written value when the index
is in range. -/
theorem list_getD_set_self (l : List ℚ) (i : Nat) (x : ℚ) (h : i < l.length) :
    (l.set i x).getD i 0 = x := by
  induction l generalizing i with
  | nil => simp at h
  | cons y ys ih =>
      cases i with
      | zero => simp
      | succ n =>
          simp only [List.set_cons_succ, List.getD_cons_succ]
          exact ih n (by simpa using h)

/-- Writing back the value already stored at an index leaves a list
unchanged (also when the index is out of range). -/
theorem list_set_getD_self (l : List ℚ) (i : Nat) :
    l.set i (l.getD i 0) = l := by
  induction l generalizing i with
  | nil => simp
  | cons x xs ih =>
      cases i with
      | zero => simp
      | succ n =>
          simp only [List.getD_cons_succ, List.set_cons_succ, List.cons.injEq,
            true_and]
          exact ih n

/-- Index of any action in the canonical action list is below 4. -/
theorem actions_indexOf_lt (a : Dir) : actions.indexOf a < 4 := by
  cases a <;> decide

/-- Every cell of the relocation scan is in bounds. -/
theorem scanPositions_inbounds : ∀ p ∈ scanPositions, inBoundsB p = true := by
  decide

/-- The emergency fallback always chooses some direction: the second
loop accepts the first of the four directions that is not the direct
reverse of the current heading, and such a direction always exists. -/
theorem emergencyMove_isSome (g : GState) : (emergencyMove g).isSome = true := by
  unfold emergencyMove
  cases hfind : List.find? (fun p =>
      !isOppositeDir g.snake.direction p.1 &&
      !wouldCollide g.snake.cells
        ((headCell g).1 + p.2.1, (headCell g).2 + p.2.2)) dirDeltas with
  | some p => rfl
  | none => cases g.snake.direction <;> decide

/-! ## C8: growth of the snake -/

/-- C8 counterexample: in the learning variants, `increase_length` on the
single-segment snake at (40, 40) appends the placeholder (-1, -1), which
does not coincide with the current tail segment (40, 40), so the claim
that the appended segment always coincides with the current tail is false
for the cited learning implementations. -/
theorem increase_length_learning_cex :
    (increaseLengthL [(40, 40)]).getLast? = some (-1, -1) ∧
    [((40 : Int), (40 : Int))].getLast? = some (40, 40) ∧
    ((-1, -1) : Cell) ≠ ((40, 40) : Cell) := by
  decide

/-- C8 (amended): `increase_length` always increases the length by
exactly one and leaves every existing segment unchanged; the appended
tail segment coincides with the current tail in the
Utilitybased/Modelbased variant, while the learning variants instead
append the off-grid placeholder (-1, -1). -/
theorem increase_length_amended (s : Snake) (h : s.cells ≠ [])
    (cellsL : List Cell) :
    (increaseLength s).cells.length = s.cells.length + 1 ∧
    (increaseLength s).cells = s.cells ++ [s.cells.getLast h] ∧
    (increaseLength s).cells.take s.cells.length = s.cells ∧
    (increaseLength s).direction = s.direction ∧
    (increaseLengthL cellsL).length = cellsL.length + 1 ∧
    (increaseLengthL cellsL).take cellsL.length = cellsL := by
  refine ⟨?_, ?_, ?_, rfl, ?_, ?_⟩
  · simp [increaseLength]
  · simp [increaseLength, List.getLast?_eq_getLast s.cells h]
  · simp [increaseLength, List.take_left]
  · simp [increaseLengthL]
  · simp [increaseLengthL, List.take_left]

/-- C8 witness: the amended statement evaluated on the single-segment
snake at (40, 40). -/
theorem increase_length_amended_witness :
    (increaseLength ⟨.down, [(40, 40)]⟩).cells = [(40, 40), (40, 40)] ∧
    increaseLengthL [(40, 40)] = [(40, 40), (-1, -1)] := by
  have h := increase_length_amended ⟨.down, [(40, 40)]⟩ (by decide) [(40, 40)]
  refine ⟨h.2.1.trans (by decide), by decide⟩

/-! ## C10: self-collision checks ignore the segments behind the head -/

/-- C10 counterexample: in `Learning.py` the per-segment test is a
box-overlap test, not a coincidence test, so a snake whose head (0, 0)
coincides with no body segment at all is still reported as colliding,
because the deeper segment (-1, -1) — the growth placeholder the same
file appends — box-overlaps the head.  Hence the claim that only
coincidence with a deeper segment triggers the terminal condition fails
for the learning variant. -/
theorem self_collision_box_overlap_cex :
    selfCollisionL [(0, 0), (0, 40), (40, 40), (-1, -1)] = true ∧
    (∀ c ∈ [((0 : Int), (40 : Int)), (40, 40), (-1, -1)],
      c ≠ ((0, 0) : Cell)) := by
  decide

/-- C10 (amended): all shallow-segment claims hold as stated —
`Utilitybased.py` returns `False` for length < 4 and reports a collision
exactly when the head coincides with a segment of index at least 4, and
`Learning.py` returns `False` for length < 4 and ignores segments of
index 1 and 2 — but in the learning variant the trigger is box overlap
of the head with a segment of index at least 3, which coincides with
exact coincidence only when all coordinates are SIZE-aligned. -/
theorem self_collision_amended :
    (∀ s : Snake, s.cells.length < 4 → selfCollisionU s = false) ∧
    (∀ s : Snake, selfCollisionU s = true ↔ s.cells.headI ∈ s.cells.drop 4) ∧
    (∀ cells : List Cell, cells.length < 4 → selfCollisionL cells = false) ∧
    (∀ cells : List Cell, selfCollisionL cells = true ↔
      ∃ c ∈ cells.drop 3,
        isCollisionL cells.headI.1 cells.headI.2 c.1 c.2 = true) ∧
    (∀ cells : List Cell, (∀ c ∈ cells, 40 ∣ c.1 ∧ 40 ∣ c.2) →
      (selfCollisionL cells = true ↔ cells.headI ∈ cells.drop 3)) := by
  have hU : ∀ s : Snake, selfCollisionU s = true ↔
      s.cells.headI ∈ s.cells.drop 4 := by
    intro s
    unfold selfCollisionU
    by_cases hlen : s.cells.length < 4
    · have : s.cells.drop 4 = [] := by
        apply List.drop_eq_nil_of_le
        omega
      simp [hlen, this]
    · simp only [hlen, if_false, List.any_eq_true, isCollisionU,
        Bool.and_eq_true, decide_eq_true_eq]
      constructor
      · rintro ⟨c, hc, h1, h2⟩
        have : s.cells.headI = c := Prod.ext h1 h2
        rwa [this]
      · intro hmem
        exact ⟨s.cells.headI, hmem, rfl, rfl⟩
  have hL : ∀ cells : List Cell, selfCollisionL cells = true ↔
      ∃ c ∈ cells.drop 3,
        isCollisionL cells.headI.1 cells.headI.2 c.1 c.2 = true := by
    intro cells
    unfold selfCollisionL
    simp [List.any_eq_true]
  refine ⟨?_, hU, ?_, hL, ?_⟩
  · intro s hlen
    simp [selfCollisionU, hlen]
  · intro cells hlen
    have : cells.drop 3 = [] := by
      apply List.drop_eq_nil_of_le
      omega
    simp [selfCollisionL, this]
  · intro cells halign
    rw [hL]
    cases cells with
    | nil => simp
    | cons hd tl =>
        have hhead : (hd :: tl).headI = hd := rfl
        have hal : ∀ c ∈ (hd :: tl).drop 3, isCollisionL hd.1 hd.2 c.1 c.2 = true ↔ hd = c := by
          intro c hc
          have hcm : c ∈ hd :: tl := List.drop_subset 3 (hd :: tl) hc
          obtain ⟨hc1, hc2⟩ := halign c hcm
          obtain ⟨hh1, hh2⟩ := halign hd (by simp)
          simp only [isCollisionL, Bool.and_eq_true, decide_eq_true_eq, SIZE]
          constructor
          · rintro ⟨⟨⟨a1, a2⟩, a3⟩, a4⟩
            have e1 : hd.1 = c.1 := by omega
            have e2 : hd.2 = c.2 := by omega
            exact Prod.ext e1 e2
          · intro he
            rw [← he]
            omega
        rw [hhead]
        constructor
        · rintro ⟨c, hc, hcol⟩
          rw [(hal c hc).mp hcol] at hc ⊢
          exact hc
        · intro hmem
          exact ⟨hd, hmem, (hal hd hmem).mpr rfl⟩

/-- C10 witness: the amended characterizations evaluated on concrete
snakes — a length-3 snake triggers nothing in either variant; a
five-segment aligned snake whose head coincides with its deepest segment
triggers both. -/
theorem self_collision_amended_witness :
    selfCollisionU ⟨.down, [(40, 40), (40, 80), (80, 80), (80, 40)]⟩ = false ∧
    selfCollisionU ⟨.down, [(40, 40), (40, 80), (80, 80), (80, 40), (40, 40)]⟩ = true ∧
    selfCollisionL [(40, 40), (40, 80), (80, 80)] = false ∧
    (selfCollisionL [(40, 40), (40, 80), (80, 80), (80, 40), (40, 40)] = true ↔
      ((40, 40) : Cell) ∈ [((80 : Int), (40 : Int)), (40, 40)]) := by
  refine ⟨?_, ?_, ?_, ?_⟩
  · rw [← Bool.not_eq_true]
    intro hcon
    have := (self_collision_amended.2.1 _).mp hcon
    simp at this
  · exact (self_collision_amended.2.1 _).mpr (by decide)
  · exact self_collision_amended.2.2.1 _ (by decide)
  · exact self_collision_amended.2.2.2.2 _ (by decide)

/-! ## C2: totality of the planning cascade -/

/-- C2: for every well-formed snapshot (non-empty body, on-grid goal)
and every scoring function, the per-tick cascade of `auto_control`
(path step, then best-scored safe move, then emergency move) hands
exactly one of the four headings to `_execute_move`: the tick never ends
without a decision, and no branch raises an error for lacking a good
move. -/
theorem auto_control_total (score : Cell → ℚ) (g : GState)
    (hb : g.snake.cells ≠ []) (ha : inBoundsB g.apple = true) :
    ∃ d, autoControl score g = some d := by
  unfold autoControl
  cases h1 : (match findPathAstar g.snake.cells (headCell g) g.apple with
    | some path =>
        if 1 < path.length then
          match path.get? 1 with
          | some nxt => getDirectionToPosition (headCell g) nxt
          | none => none
        else none
    | none => none : Option Dir) with
  | some d => exact ⟨d, rfl⟩
  | none =>
      cases h2 : maxByScore (evaluateMoves score g) with
      | some p => exact ⟨p.1, rfl⟩
      | none =>
          obtain ⟨d, hd⟩ := Option.isSome_iff_exists.mp (emergencyMove_isSome g)
          exact ⟨d, hd⟩

/-- C2 witness: the cascade decides on a concrete single-segment snake
with the apple in view. -/
theorem auto_control_total_witness :
    ([((40 : Int), (40 : Int))] ≠ []) ∧
    inBoundsB (120, 120) = true ∧
    ∃ d, autoControl (fun _ => 0) ⟨⟨.down, [(40, 40)]⟩, (120, 120)⟩ = some d :=
  ⟨by decide, by decide,
    auto_control_total (fun _ => 0) ⟨⟨.down, [(40, 40)]⟩, (120, 120)⟩
      (by decide) (by decide)⟩

/-! ## C4: the emergency stage never reverses -/

/-- C4 counterexample: a concrete snapshot in which every non-reversing
heading of the down-moving snake leads to a blocked cell while the direct
reverse leads to the free cell (40, 0); `_emergency_move` nevertheless
chooses `down` — a blocked, non-reversing heading equal to the current
one — so the claims that a free reversal is chosen as last resort and
that the agent commits to its current heading only when all four
headings are blocked are both false. -/
theorem emergency_reversal_cex :
    (∀ p ∈ dirDeltas, isOppositeDir .down p.1 = false →
      wouldCollide gEmergency.snake.cells (40 + p.2.1, 40 + p.2.2) = true) ∧
    wouldCollide gEmergency.snake.cells (40, 0) = false ∧
    emergencyMove gEmergency = some .down ∧
    wouldCollide gEmergency.snake.cells (40, 80) = true := by
  decide

/-- C4 (amended): when every non-reversing heading is blocked, the
emergency fallback still never reverses, even when the reverse cell is
free: its final loop executes the first non-reversing direction of the
fixed order up, down, left, right — `up` unless the current heading is
`down`, in which case `down` — without checking blockage, and the chosen
heading is never the direct reverse of the current one. -/
theorem emergency_move_amended (g : GState)
    (hblock : ∀ p ∈ dirDeltas, isOppositeDir g.snake.direction p.1 = false →
      wouldCollide g.snake.cells
        ((headCell g).1 + p.2.1, (headCell g).2 + p.2.2) = true) :
    emergencyMove g =
      some (if g.snake.direction = .down then .down else .up) ∧
    ∀ d, emergencyMove g = some d → d ≠ oppositeDir g.snake.direction := by
  have hnone : List.find? (fun p =>
      !isOppositeDir g.snake.direction p.1 &&
      !wouldCollide g.snake.cells
        ((headCell g).1 + p.2.1, (headCell g).2 + p.2.2)) dirDeltas = none := by
    rw [List.find?_eq_none]
    intro p hp
    by_cases ho : isOppositeDir g.snake.direction p.1 = true
    · simp [ho]
    · have hb := hblock p hp (by simpa using ho)
      simp [hb]
  have hmain : emergencyMove g =
      some (if g.snake.direction = .down then .down else .up) := by
    unfold emergencyMove
    rw [hnone]
    cases g.snake.direction <;> decide
  refine ⟨hmain, ?_⟩
  intro d hdm
  rw [hmain] at hdm
  cases hdir : g.snake.direction <;>
    rw [hdir] at hdm <;> simp at hdm <;> subst hdm <;> decide

/-- C4 witness: on the corner snapshot with all non-reversing headings
blocked, the emergency stage picks `up` (the current heading is `left`),
which is not the reverse of the current heading. -/
theorem emergency_move_amended_witness :
    emergencyMove gEmergencyW = some .up ∧ (Dir.up ≠ oppositeDir .left) := by
  have h := emergency_move_amended gEmergencyW (by decide)
  exact ⟨h.1.trans (by decide), by decide⟩

/-! ## C3: the trap-avoidance sub-score -/

/-- C3 counterexample: the code's flood fill runs with the constant cap
`max_depth = 50`, not with cap `bodyLength + margin`.  For the concrete
46-segment snake and the open candidate cell (400, 400) the code's
sub-score is `50 / 51 * 100 < 100` while the claimed formula (cap
`bodyLength + 5 = 51`, count reaching the cap) yields exactly 100, so the
claimed equation is false. -/
theorem trap_score_cap_cex :
    calculateTrapAvoidanceScore g46 (400, 400) ≠
      trapScoreSpecClaim g46 (400, 400) := by
  have hlen : g46.snake.cells.length = 46 := by decide
  have h1 : floodFillCount g46.snake.cells (400, 400) 50 = 50 := by decide
  have h2 : floodFillCount g46.snake.cells (400, 400) 51 = 51 := by decide
  unfold calculateTrapAvoidanceScore trapScoreSpecClaim trapScoreFromCount
  rw [hlen, h1]
  norm_num
  rw [h2]
  norm_num

/-- C3 (amended): the flood fill is capped at the constant 50 rather
than at `bodyLength + margin`; with that correction the sub-score is
`100` if the capped count reaches `bodyLength + 5` and
`count / (bodyLength + 5) * 100` otherwise, always lies in [0, 100],
equals 100 exactly when the count reaches `bodyLength + 5`, and — holding
everything else fixed — strictly decreases as the count decreases below
`bodyLength` (the claimed monotonicity, which survives unchanged). -/
theorem trap_score_amended :
    (∀ (g : GState) (c : Cell), calculateTrapAvoidanceScore g c =
      trapScoreFromCount g.snake.cells.length
        (floodFillCount g.snake.cells c 50)) ∧
    (∀ len count : Nat, 0 ≤ trapScoreFromCount len count ∧
      trapScoreFromCount len count ≤ 100) ∧
    (∀ len count : Nat,
      trapScoreFromCount len count = 100 ↔ len + 5 ≤ count) ∧
    (∀ len a b : Nat, a < b → b < len →
      trapScoreFromCount len a < trapScoreFromCount len b) := by
  have hpos : ∀ len : Nat, (0 : ℚ) < (len : ℚ) + 5 := by
    intro len
    positivity
  refine ⟨fun g c => rfl, ?_, ?_, ?_⟩
  · intro len count
    unfold trapScoreFromCount
    by_cases h : len + 5 ≤ count
    · rw [if_pos h]
      norm_num
    · rw [if_neg h]
      constructor
      · positivity
      · have hlt : (count : ℚ) < (len : ℚ) + 5 := by
          exact_mod_cast (by omega : count < len + 5)
        have h1 : (count : ℚ) / ((len : ℚ) + 5) < 1 :=
          (div_lt_one (hpos len)).mpr hlt
        nlinarith
  · intro len count
    unfold trapScoreFromCount
    by_cases h : len + 5 ≤ count
    · simp [h]
    · rw [if_neg h]
      constructor
      · intro habs
        have hlt : (count : ℚ) < (len : ℚ) + 5 := by
          exact_mod_cast (by omega : count < len + 5)
        have h1 : (count : ℚ) / ((len : ℚ) + 5) < 1 :=
          (div_lt_one (hpos len)).mpr hlt
        nlinarith
      · intro hc
        exact absurd hc h
  · intro len a b hab hblen
    unfold trapScoreFromCount
    rw [if_neg (by omega), if_neg (by omega)]
    have hcast : (a : ℚ) < (b : ℚ) := by exact_mod_cast hab
    have := hpos len
    gcongr

/-- C3 witness: the amended statements evaluated at body length 10 —
counts 3 and 7 below the body length score strictly increasingly, the
score at the cap 15 is exactly 100, and at count 3 it is 20. -/
theorem trap_score_amended_witness :
    trapScoreFromCount 10 3 < trapScoreFromCount 10 7 ∧
    trapScoreFromCount 10 15 = 100 ∧
    trapScoreFromCount 10 3 = 20 := by
  refine ⟨trap_score_amended.2.2.2 10 3 7 (by norm_num) (by norm_num),
    (trap_score_amended.2.2.1 10 15).mpr (by norm_num), ?_⟩
  unfold trapScoreFromCount
  norm_num

/-! ## C9: goal relocation when no free cell exists -/

/-- Helper: when the snake occupies every scanned cell, the valid
position list of `Apple.move` is empty. -/
theorem appleValid_scanFull_nil : appleValidPositions scanPositions = [] := by
  rw [appleValidPositions, List.filter_eq_nil_iff]
  intro a ha
  simp [ha]

/-- C9 counterexample: the exhaustion fallback of `Apple.move` reports
nothing to the caller: the caller receives only a cell, and a call in the
exhausted configuration (snake on every scanned cell, fallback draws 3, 3)
returns the very same cell as a normal non-exhausted call (empty snake,
choice index 60), so no `GoalPlacementExhausted` condition — indeed no
signal at all — distinguishes exhaustion for the caller. -/
theorem apple_move_exhaustion_silent_cex :
    appleValidPositions scanPositions = [] ∧
    appleValidPositions [] ≠ [] ∧
    appleMove scanPositions 0 3 3 = appleMove [] 60 0 0 := by
  have h2 : appleValidPositions [] = scanPositions := by
    rw [appleValidPositions]
    simp
  refine ⟨appleValid_scanFull_nil, ?_, ?_⟩
  · rw [h2]
    decide
  · unfold appleMove
    rw [appleValid_scanFull_nil, h2]
    decide

/-- C9 (amended): `Apple.move` neither loops nor crashes and always
returns an in-bounds cell, and in the exhausted case it degrades to the
random in-bounds fallback cell — but it does so silently: the returned
cell is the caller's only observable, so no exhaustion condition is
reported. -/
theorem apple_move_amended (sp : List Cell) (choice ri rj : Nat)
    (hri : ri < 25) (hrj : rj < 20) :
    inBoundsB (appleMove sp choice ri rj) = true ∧
    (appleValidPositions sp = [] →
      appleMove sp choice ri rj = ((ri : Int) * SIZE, (rj : Int) * SIZE)) := by
  constructor
  · unfold appleMove
    by_cases hv : appleValidPositions sp = []
    · rw [if_neg (by simp [hv])]
      simp only [inBoundsB, SIZE, WIDTH, HEIGHT, Bool.and_eq_true,
        decide_eq_true_eq]
      refine ⟨⟨⟨?_, ?_⟩, ?_⟩, ?_⟩ <;> omega
    · rw [if_pos (by simp [hv])]
      have hlen : 0 < (appleValidPositions sp).length :=
        List.length_pos.mpr hv
      have hmod : choice % (appleValidPositions sp).length <
          (appleValidPositions sp).length := Nat.mod_lt _ hlen
      have hmem : (appleValidPositions sp).getD
          (choice % (appleValidPositions sp).length) (0, 0) ∈
          appleValidPositions sp := by
        rw [List.getD_eq_getElem _ _ hmod]
        exact List.getElem_mem _
      have hscan : (appleValidPositions sp).getD
          (choice % (appleValidPositions sp).length) (0, 0) ∈
          scanPositions := List.mem_of_mem_filter hmem
      exact scanPositions_inbounds _ hscan
  · intro h
    unfold appleMove
    rw [if_neg (by simp [h])]

/-- C9 witness: the exhausted call lands on the in-bounds fallback cell
(120, 120). -/
theorem apple_move_amended_witness :
    inBoundsB (appleMove scanPositions 0 3 3) = true ∧
    appleMove scanPositions 0 3 3 = (120, 120) := by
  have h := apple_move_amended scanPositions 0 3 3 (by norm_num) (by norm_num)
  exact ⟨h.1, (h.2 appleValid_scanFull_nil).trans (by decide)⟩

/-! ## C5: the temporal-difference update formula -/

/-- C5: `learn` updates the stored value of the queried state and action
by exactly `lr * (target - predict)`: for a non-terminal transition the
target is `r + gamma * max_a Q[next_state][a]` (next-state values read
with the default all-zero vector for unseen states, exactly the lazily
inserted vector), and for a terminal transition (`next_state is None`)
the target is the reward alone, so the stored value moves toward `r`
with no next-state contribution.  The table is only required to hold
4-entry vectors, as every vector the code ever stores is `np.zeros(4)`
or an update of one. -/
theorem qlearning_learn_update (lr γ : ℚ) (t : QTable) (s : QState) (a : Dir)
    (r : ℚ) (s2 : QState) (hwf : ∀ p ∈ t, p.2.length = 4) :
    (∃ v, getQ (learn lr γ t s a r (some s2)) s = some v ∧
      v.getD (actions.indexOf a) 0 =
        ((getQ t s).getD zeros4).getD (actions.indexOf a) 0 +
          lr * ((r + γ * npMax ((getQ t s2).getD zeros4)) -
            ((getQ t s).getD zeros4).getD (actions.indexOf a) 0)) ∧
    (∃ v, getQ (learn lr γ t s a r none) s = some v ∧
      v.getD (actions.indexOf a) 0 =
        ((getQ t s).getD zeros4).getD (actions.indexOf a) 0 +
          lr * (r - ((getQ t s).getD zeros4).getD (actions.indexOf a) 0)) := by
  have hlen4 : ((getQ t s).getD zeros4).length = 4 := by
    cases h : getQ t s with
    | none => simp [zeros4]
    | some v => simpa using hwf (s, v) (getQ_some_mem t s v h)
  have hidx : actions.indexOf a < ((getQ t s).getD zeros4).length := by
    rw [hlen4]
    exact actions_indexOf_lt a
  have key : ∀ ns : Option QState, ∃ v,
      getQ (learn lr γ t s a r ns) s = some v ∧
      v.getD (actions.indexOf a) 0 =
        ((getQ t s).getD zeros4).getD (actions.indexOf a) 0 +
          lr * (learnTarget γ r t ns -
            ((getQ t s).getD zeros4).getD (actions.indexOf a) 0) := by
    intro ns
    have hts : getQ (lazyInitNext (lazyInit t s) ns) s =
        some ((getQ t s).getD zeros4) :=
      getQ_lazyInitNext_of_some _ ns s _ (getQ_lazyInit_self t s)
    have htarget : learnTarget γ r (lazyInitNext (lazyInit t s) ns) ns =
        learnTarget γ r t ns := by
      cases ns with
      | none => rfl
      | some z => simp [learnTarget, getQ_lazyInitNext_view, getQ_lazyInit_view]
    have hlearn : learn lr γ t s a r ns =
        setQ (lazyInitNext (lazyInit t s) ns) s
          (((getQ t s).getD zeros4).set (actions.indexOf a)
            (((getQ t s).getD zeros4).getD (actions.indexOf a) 0 +
              lr * (learnTarget γ r t ns -
                ((getQ t s).getD zeros4).getD (actions.indexOf a) 0))) := by
      simp only [learn]
      rw [hts, htarget, Option.getD_some]
    rw [hlearn, getQ_setQ_self]
    exact ⟨_, rfl, list_getD_set_self _ _ _ hidx⟩
  constructor
  · obtain ⟨v, hv, he⟩ := key (some s2)
    exact ⟨v, hv, by simpa [learnTarget] using he⟩
  · obtain ⟨v, hv, he⟩ := key none
    exact ⟨v, hv, by simpa [learnTarget] using he⟩

/-- C5 witness: starting from the empty table, a terminal update with
reward -10 and learning rate 1/10 stores value -1 for the queried pair. -/
theorem qlearning_learn_update_witness :
    ∃ v, getQ (learn (1/10) (9/10) [] (0, 0, 3) .up (-10) none) (0, 0, 3) =
      some v ∧ v.getD (actions.indexOf .up) 0 = -1 := by
  have h := qlearning_learn_update (1/10) (9/10) [] (0, 0, 3) .up (-10)
    (1, 0, 2) (by simp)
  obtain ⟨v, hv, he⟩ := h.2
  refine ⟨v, hv, ?_⟩
  rw [he]
  have hv0 : ((getQ ([] : QTable) (0, 0, 3)).getD zeros4).getD
      (actions.indexOf .up) 0 = 0 := rfl
  rw [hv0]
  norm_num

/-! ## C6: action choice on an unseen state -/

/-- C6 counterexample: with epsilon = 0 and a state never seen before,
`choose_action` routes to the `np.random.choice` branch (the test is
`rand() < epsilon OR state not in q_table`), so the result depends on the
random draw: two calls on the same unseen state with different draws
return different actions.  The claimed deterministic first-action
tie-break is therefore false for unseen states. -/
theorem choose_action_unseen_random_cex :
    chooseAction [] (1, 1, 3) 0 0 0 ≠ chooseAction [] (1, 1, 3) 0 0 1 := by
  decide

/-- C6 (amended): with epsilon = 0 the choice is deterministic (and equal
to the argmax of the stored vector, `np.argmax` taking the first maximal
index) exactly for states already present in the table; for an unseen
state the action is drawn uniformly at random.  The `np.random.rand()`
draw is non-negative, so with epsilon = 0 the epsilon branch never
fires for stored states. -/
theorem choose_action_greedy_det (t : QTable) (s : QState) (v : List ℚ)
    (hs : getQ t s = some v) (r1 r2 : ℚ) (i1 i2 : Fin 4)
    (h1 : 0 ≤ r1) (h2 : 0 ≤ r2) :
    chooseAction t s 0 r1 i1 = chooseAction t s 0 r2 i2 ∧
    chooseAction t s 0 r1 i1 = actions.getD (npArgmax v) .left := by
  have e1 : ¬(r1 < 0) := not_lt.mpr h1
  have e2 : ¬(r2 < 0) := not_lt.mpr h2
  constructor <;> simp [chooseAction, hs, e1, e2]

/-- C6 witness: on a stored state with the all-zero value vector, two
greedy calls with different random draws agree and return the first
action in canonical order. -/
theorem choose_action_greedy_det_witness :
    chooseAction [((1, 1, 3), [0, 0, 0, 0])] (1, 1, 3) 0 (1/2) 2 =
      chooseAction [((1, 1, 3), [0, 0, 0, 0])] (1, 1, 3) 0 (1/4) 3 ∧
    chooseAction [((1, 1, 3), [0, 0, 0, 0])] (1, 1, 3) 0 (1/2) 2 = .left := by
  have h := choose_action_greedy_det [((1, 1, 3), [0, 0, 0, 0])] (1, 1, 3)
    [0, 0, 0, 0] (by decide) (1/2) (1/4) 2 3 (by norm_num) (by norm_num)
  exact ⟨h.1, h.2.trans (by decide)⟩

/-! ## C7: update under zero learning rate -/

/-- C7 counterexample: with learning rate 0, `learn` on a state absent
from the table still lazily inserts a zero vector for it, so the set of
stored state keys is not identical before and after the call: starting
from the empty table, the key set changes from empty to the singleton of
the queried state. -/
theorem learn_zero_alpha_keys_cex :
    (learn 0 (9/10) [] (1, 1, 3) .left (-10) none).map Prod.fst ≠
      ([] : QTable).map Prod.fst := by
  decide

/-- C7 (amended): with learning rate 0 the table viewed as a total map
with default value `np.zeros(4)` is unchanged by `learn`: the value
written back is exactly the value read, and the only possible structural
change is the lazy insertion of all-zero vectors for the queried state
and (when non-terminal) the next state. -/
theorem learn_zero_alpha_view_unchanged (γ : ℚ) (t : QTable) (s : QState)
    (a : Dir) (r : ℚ) (ns : Option QState) (z : QState) :
    (getQ (learn 0 γ t s a r ns) z).getD zeros4 = (getQ t z).getD zeros4 := by
  have hview : ∀ z2, (getQ (lazyInitNext (lazyInit t s) ns) z2).getD zeros4 =
      (getQ t z2).getD zeros4 := by
    intro z2
    rw [getQ_lazyInitNext_view, getQ_lazyInit_view]
  have hlearn : learn 0 γ t s a r ns =
      setQ (lazyInitNext (lazyInit t s) ns) s
        ((getQ (lazyInitNext (lazyInit t s) ns) s).getD zeros4) := by
    simp only [learn]
    rw [zero_mul, add_zero, list_set_getD_self]
  rw [hlearn]
  by_cases hz : z = s
  · subst hz
    rw [getQ_setQ_self]
    exact hview z
  · rw [getQ_setQ_ne _ _ _ _ hz]
    exact hview z

/-! ## C1: the capped breadth-first path search -/

/-- The bounds set has exactly 1000 * 800 cells. -/
theorem boundsFinset_card : boundsFinset.card = 800000 := by
  rw [boundsFinset, Finset.card_product, Int.card_Ico, Int.card_Ico]
  rfl

/-- Every in-bounds cell belongs to the bounds set. -/
theorem mem_boundsFinset (z : Cell) (h : inBoundsB z = true) :
    z ∈ boundsFinset := by
  simp only [inBoundsB, WIDTH, HEIGHT, Bool.and_eq_true,
    decide_eq_true_eq] at h
  simp only [boundsFinset, Finset.mem_product, Finset.mem_Ico]
  refine ⟨⟨?_, ?_⟩, ?_, ?_⟩ <;> omega

attribute [irreducible] boundsFinset

/-- A duplicate-free list of members of a finite set is no longer than
the set's cardinality. -/
theorem nodup_length_le_card (v : List Cell) (S : Finset Cell)
    (hnd : v.Nodup) (hmem : ∀ z ∈ v, z ∈ S) : v.length ≤ S.card := by
  have hsub : v.toFinset ⊆ S := by
    intro z hz
    exact hmem z (List.mem_toFinset.mp hz)
  calc v.length = v.toFinset.card := (List.toFinset_card_of_nodup hnd).symm
  _ ≤ S.card := Finset.card_le_card hsub

/-- A duplicate-free visited list whose cells are the start or in bounds
has at most 800001 entries (1000 x 800 in-bounds integer cells plus the
start). -/
theorem visited_length_le (v : List Cell) (start : Cell) (hnd : v.Nodup)
    (hb : ∀ z ∈ v, z = start ∨ inBoundsB z = true) : v.length ≤ 800001 := by
  have hmem : ∀ z ∈ v, z ∈ insert start boundsFinset := by
    intro z hz
    rcases hb z hz with h | h
    · simp [h]
    · exact Finset.mem_insert_of_mem (mem_boundsFinset z h)
  have h1 := nodup_length_le_card v (insert start boundsFinset) hnd hmem
  have h3 : (insert start boundsFinset).card ≤ boundsFinset.card + 1 :=
    Finset.card_insert_le _ _
  have h4 := boundsFinset_card
  omega

/-- On a valid path, each cell is one of the `get_neighbors` of its
predecessor: 4-adjacent, in bounds and collision free. -/
theorem step_in_neighbors (cells : List Cell) (start : Cell)
    (qq : List Cell) (z' z : Cell) (n : Nat) (hv : ValidQ cells start qq)
    (hg' : qq.get? n = some z') (hg : qq.get? (n + 1) = some z) :
    z ∈ getNeighbors cells z' := by
  have hlt : n + 1 < qq.length := (List.get?_eq_some.mp hg).1
  have hadj : adjacent z' z := by
    have hchain := List.chain'_iff_get.mp hv.2.1 n (by omega)
    have e1 : qq.get ⟨n, by omega⟩ = z' := by
      have := List.get?_eq_get (l := qq) (n := n) (by omega)
      rw [this] at hg'
      exact Option.some.inj hg'
    have e2 : qq.get ⟨n + 1, by omega⟩ = z := by
      have := List.get?_eq_get (l := qq) (n := n + 1) (by omega)
      rw [this] at hg
      exact Option.some.inj hg
    rwa [e1, e2] at hchain
  have hok : okCellB cells z = true := by
    apply hv.2.2
    have htl : qq.tail.get? n = some z := by
      cases qq with
      | nil => simp at hg
      | cons a l => exact hg
    exact List.get?_mem htl
  unfold getNeighbors
  rw [List.mem_filter]
  exact ⟨hadj, hok⟩

/-- When the queue is empty, the visited set is closed under valid
paths: every cell of a valid path from the start is visited. -/
theorem frontier_closed (cells : List Cell) (start : Cell) (v P : List Cell)
    (hstart : start ∈ v) (hpart : ∀ z ∈ v, z ∈ P)
    (hclosed : ∀ p ∈ P, ∀ n ∈ getNeighbors cells p, n ∈ v) :
    ∀ (i : Nat) (qq : List Cell) (z : Cell), ValidQ cells start qq →
      qq.get? i = some z → z ∈ v := by
  intro i
  induction i with
  | zero =>
      intro qq z hv hg
      have hz : qq.head? = some z := by
        cases qq with
        | nil => simp at hg
        | cons a l => simpa using hg
      rw [hv.1] at hz
      rw [← Option.some.inj hz]
      exact hstart
  | succ n ih =>
      intro qq z hv hg
      have hlt : n + 1 < qq.length := (List.get?_eq_some.mp hg).1
      have hg' : qq.get? n = some (qq.get ⟨n, by omega⟩) :=
        List.get?_eq_get (by omega)
      have hz' : qq.get ⟨n, by omega⟩ ∈ v := ih qq _ hv hg'
      exact hclosed _ (hpart _ hz') z
        (step_in_neighbors cells start qq _ z n hv hg' hg)

/-- Frontier bound: while the queue holds entries no shorter than the
just-popped path `π` (whose entry is tight) and every visited cell is
processed, the popped cell, or on the queue, any valid path reaching an
unvisited cell needs at least `π.length` steps to get there. -/
theorem frontier_bound (cells : List Cell) (start c : Cell) (π : List Cell)
    (q : List (Cell × List Cell)) (v P : List Cell)
    (hstart : start ∈ v)
    (hpart : ∀ z ∈ v, z ∈ P ∨ z = c ∨ ∃ π', (z, π') ∈ q)
    (hclosed : ∀ p ∈ P, ∀ n ∈ getNeighbors cells p, n ∈ v)
    (htightC : EntryTight cells start (c, π))
    (htight : ∀ e ∈ q, EntryTight cells start e)
    (hlen : ∀ e ∈ q, π.length ≤ e.2.length) :
    ∀ (i : Nat) (qq : List Cell) (z : Cell), ValidQ cells start qq →
      qq.get? i = some z → z ∉ v → π.length ≤ i := by
  intro i
  induction i with
  | zero =>
      intro qq z hv hg hz
      exfalso
      apply hz
      have hz0 : qq.head? = some z := by
        cases qq with
        | nil => simp at hg
        | cons a l => simpa using hg
      rw [hv.1] at hz0
      rw [← Option.some.inj hz0]
      exact hstart
  | succ n ih =>
      intro qq z hv hg hz
      have hlt : n + 1 < qq.length := (List.get?_eq_some.mp hg).1
      have hg' : qq.get? n = some (qq.get ⟨n, by omega⟩) :=
        List.get?_eq_get (by omega)
      by_cases hz' : qq.get ⟨n, by omega⟩ ∈ v
      · rcases hpart _ hz' with hP | hc | ⟨π', he⟩
        · exfalso
          apply hz
          exact hclosed _ hP z
            (step_in_neighbors cells start qq _ z n hv hg' hg)
        · have hgc : qq.get? n = some c := by rw [hg', hc]
          have h2 : π.length ≤ n + 1 := htightC qq n hv hgc
          omega
        · have h1 : π'.length ≤ n + 1 := htight _ he qq n hv hg'
          have h2 : π.length ≤ π'.length := hlen _ he
          omega
      · have := ih qq _ hv hg' hz'
        omega

/-- Preservation of the BFS invariants by the neighbour-enqueueing loop:
expanding the popped entry `(c, π)` over any sublist `ns` of the
neighbours of `c` keeps every invariant, visits every processed
neighbour, and enqueues exactly one entry per newly visited cell. -/
theorem enqueueAll_spec (cells : List Cell) (start c : Cell) (π : List Cell)
    (P : List Cell) (hπvalid : ValidQ cells start π)
    (hπlast : π.getLast? = some c)
    (htightC : EntryTight cells start (c, π)) :
    ∀ (ns : List Cell) (q : List (Cell × List Cell)) (v : List Cell),
      (∀ n ∈ ns, n ∈ getNeighbors cells c) →
      (∀ e ∈ q, ValidQ cells start e.2 ∧ e.2.getLast? = some e.1 ∧ e.1 ∈ v) →
      (∀ e ∈ q, EntryTight cells start e) →
      (∀ e ∈ q, π.length ≤ e.2.length ∧ e.2.length ≤ π.length + 1) →
      List.Chain' (fun a b : Cell × List Cell => a.2.length ≤ b.2.length) q →
      start ∈ v →
      (∀ z ∈ v, z ∈ P ∨ z = c ∨ ∃ π', (z, π') ∈ q) →
      (∀ p ∈ P, ∀ n ∈ getNeighbors cells p, n ∈ v) →
      v.Nodup →
      (∀ z ∈ v, z = start ∨ inBoundsB z = true) →
      ((∀ e ∈ (enqueueAll π ns q v).1, ValidQ cells start e.2 ∧
          e.2.getLast? = some e.1 ∧ e.1 ∈ (enqueueAll π ns q v).2) ∧
       (∀ e ∈ (enqueueAll π ns q v).1, EntryTight cells start e) ∧
       (∀ e ∈ (enqueueAll π ns q v).1,
          π.length ≤ e.2.length ∧ e.2.length ≤ π.length + 1) ∧
       List.Chain' (fun a b : Cell × List Cell => a.2.length ≤ b.2.length)
         (enqueueAll π ns q v).1 ∧
       start ∈ (enqueueAll π ns q v).2 ∧
       (∀ z ∈ (enqueueAll π ns q v).2,
          z ∈ P ∨ z = c ∨ ∃ π', (z, π') ∈ (enqueueAll π ns q v).1) ∧
       (enqueueAll π ns q v).2.Nodup ∧
       (∀ z ∈ (enqueueAll π ns q v).2, z = start ∨ inBoundsB z = true) ∧
       (∀ n ∈ ns, n ∈ (enqueueAll π ns q v).2) ∧
       (∀ z ∈ v, z ∈ (enqueueAll π ns q v).2) ∧
       (enqueueAll π ns q v).1.length + v.length =
         q.length + (enqueueAll π ns q v).2.length) := by
  intro ns
  induction ns with
  | nil =>
      intro q v hns hok htight hlen hsort hstart hpart hclosed hnd hvb
      simp only [enqueueAll]
      refine ⟨hok, htight, hlen, hsort, hstart, hpart, hnd, hvb,
        by simp, fun z hz => hz, by simp⟩
  | cons n ns ih =>
      intro q v hns hok htight hlen hsort hstart hpart hclosed hnd hvb
      by_cases hn : n ∈ v
      · have heq : enqueueAll π (n :: ns) q v = enqueueAll π ns q v := by
          simp [enqueueAll, hn]
        rw [heq]
        obtain ⟨c1, c2, c3, c4, c5, c6, c7, c8, c9, c10, c11⟩ :=
          ih q v (fun m hm => hns m (List.mem_cons_of_mem _ hm)) hok htight
            hlen hsort hstart hpart hclosed hnd hvb
        refine ⟨c1, c2, c3, c4, c5, c6, c7, c8, ?_, c10, c11⟩
        intro m hm
        rcases List.mem_cons.mp hm with hm | hm
        · rw [hm]
          exact c10 n hn
        · exact c9 m hm
      · -- the new cell is enqueued and marked visited
        have heq : enqueueAll π (n :: ns) q v =
            enqueueAll π ns (q ++ [(n, π ++ [n])]) (n :: v) := by
          simp [enqueueAll, hn]
        rw [heq]
        have hπne : π ≠ [] := by
          intro h
          rw [h] at hπlast
          simp at hπlast
        have hgn : n ∈ getNeighbors cells c := hns n (List.mem_cons_self _ _)
        have hadj : adjacent c n := by
          have := List.mem_filter.mp (by simpa [getNeighbors] using hgn)
          exact this.1
        have hokn : okCellB cells n = true := by
          have := List.mem_filter.mp (by simpa [getNeighbors] using hgn)
          exact this.2
        have hEvalid : ValidQ cells start (π ++ [n]) := by
          obtain ⟨a, t, rfl⟩ : ∃ a t, π = a :: t := by
            cases π with
            | nil => exact absurd rfl hπne
            | cons a t => exact ⟨a, t, rfl⟩
          refine ⟨by simpa using hπvalid.1, ?_, ?_⟩
          · refine List.Chain'.append hπvalid.2.1 (List.chain'_singleton n) ?_
            intro x hx y hy
            rw [hπlast] at hx
            simp only [Option.mem_def, Option.some.injEq] at hx
            simp only [List.head?_cons, Option.mem_def,
              Option.some.injEq] at hy
            subst hx
            subst hy
            exact hadj
          · intro z hz
            simp only [List.cons_append, List.tail_cons] at hz
            rcases List.mem_append.mp hz with hz | hz
            · exact hπvalid.2.2 z hz
            · rw [List.mem_singleton.mp hz]
              exact hokn
        have hElast : (π ++ [n]).getLast? = some n := List.getLast?_concat π
        have hEtight : EntryTight cells start (n, π ++ [n]) := by
          intro qq i hvq hgq
          have hb := frontier_bound cells start c π q v P hstart hpart
            hclosed htightC htight (fun e he => (hlen e he).1) i qq n hvq
            hgq hn
          simp only [List.length_append, List.length_singleton]
          omega
        have hok1 : ∀ e ∈ q ++ [(n, π ++ [n])], ValidQ cells start e.2 ∧
            e.2.getLast? = some e.1 ∧ e.1 ∈ n :: v := by
          intro e he
          rcases List.mem_append.mp he with he | he
          · obtain ⟨h1, h2, h3⟩ := hok e he
            exact ⟨h1, h2, List.mem_cons_of_mem _ h3⟩
          · rw [List.mem_singleton.mp he]
            exact ⟨hEvalid, hElast, List.mem_cons_self _ _⟩
        have htight1 : ∀ e ∈ q ++ [(n, π ++ [n])], EntryTight cells start e := by
          intro e he
          rcases List.mem_append.mp he with he | he
          · exact htight e he
          · rw [List.mem_singleton.mp he]
            exact hEtight
        have hlen1 : ∀ e ∈ q ++ [(n, π ++ [n])],
            π.length ≤ e.2.length ∧ e.2.length ≤ π.length + 1 := by
          intro e he
          rcases List.mem_append.mp he with he | he
          · exact hlen e he
          · rw [List.mem_singleton.mp he]
            simp
        have hsort1 : List.Chain' (fun a b : Cell × List Cell =>
            a.2.length ≤ b.2.length) (q ++ [(n, π ++ [n])]) := by
          refine List.Chain'.append hsort (List.chain'_singleton _) ?_
          intro x hx y hy
          simp only [List.head?_cons, Option.mem_def, Option.some.injEq] at hy
          have hxq : x ∈ q := List.mem_of_mem_getLast? hx
          rw [← hy]
          simp only [List.length_append, List.length_singleton]
          exact (hlen x hxq).2
        have hpart1 : ∀ z ∈ n :: v, z ∈ P ∨ z = c ∨
            ∃ π', (z, π') ∈ q ++ [(n, π ++ [n])] := by
          intro z hz
          rcases List.mem_cons.mp hz with hz | hz
          · right
            right
            exact ⟨π ++ [n], by simp [hz]⟩
          · rcases hpart z hz with h | h | ⟨π', h⟩
            · exact Or.inl h
            · exact Or.inr (Or.inl h)
            · exact Or.inr (Or.inr ⟨π', List.mem_append_left _ h⟩)
        have hclosed1 : ∀ p ∈ P, ∀ m ∈ getNeighbors cells p, m ∈ n :: v :=
          fun p hp m hm => List.mem_cons_of_mem _ (hclosed p hp m hm)
        have hnd1 : (n :: v).Nodup := List.nodup_cons.mpr ⟨hn, hnd⟩
        have hvb1 : ∀ z ∈ n :: v, z = start ∨ inBoundsB z = true := by
          intro z hz
          rcases List.mem_cons.mp hz with hz | hz
          · right
            rw [hz]
            have h2 := hokn
            simp only [okCellB, Bool.and_eq_true] at h2
            exact h2.1
          · exact hvb z hz
        obtain ⟨c1, c2, c3, c4, c5, c6, c7, c8, c9, c10, c11⟩ :=
          ih (q ++ [(n, π ++ [n])]) (n :: v)
            (fun m hm => hns m (List.mem_cons_of_mem _ hm)) hok1 htight1
            hlen1 hsort1 (List.mem_cons_of_mem _ hstart) hpart1 hclosed1
            hnd1 hvb1
        refine ⟨c1, c2, c3, c4, c5, c6, c7, c8, ?_, ?_, ?_⟩
        · intro m hm
          rcases List.mem_cons.mp hm with hm | hm
          · rw [hm]
            exact c10 n (List.mem_cons_self _ _)
          · exact c9 m hm
        · intro z hz
          exact c10 z (List.mem_cons_of_mem _ hz)
        · simp only [List.length_append, List.length_singleton,
            List.length_cons, List.length_nil] at c11 ⊢
          omega

/-- The boolean chain check agrees with `List.Chain' adjacent`. -/
theorem chainAdjB_iff : ∀ l : List Cell,
    chainAdjB l = true ↔ List.Chain' adjacent l
  | [] => by simp [chainAdjB]
  | [a] => by simp [chainAdjB]
  | a :: b :: t => by
      rw [List.chain'_cons,
        show chainAdjB (a :: b :: t) =
          (decide (adjacent a b) && chainAdjB (b :: t)) from rfl,
        Bool.and_eq_true, decide_eq_true_iff]
      exact and_congr_right fun _ => chainAdjB_iff (b :: t)

/-- The boolean path check agrees with `IsPathTo`. -/
theorem isPathToB_iff (cells : List Cell) (start goal : Cell)
    (p : List Cell) : isPathToB cells start goal p = true ↔
      IsPathTo cells start goal p := by
  unfold isPathToB IsPathTo
  rw [Bool.and_eq_true, Bool.and_eq_true, Bool.and_eq_true,
    decide_eq_true_iff, decide_eq_true_iff, chainAdjB_iff, List.all_eq_true]
  tauto

/-- In a queue whose path lengths are sorted, the head's path is
shortest. -/
theorem chain'_head_le (q : List (Cell × List Cell))
    (hc : List.Chain' (fun a b : Cell × List Cell =>
      a.2.length ≤ b.2.length) q) :
    ∀ h ∈ q.head?, ∀ e ∈ q, h.2.length ≤ e.2.length := by
  induction q with
  | nil => simp
  | cons x xs ih =>
      intro h hh e he
      simp only [List.head?_cons, Option.mem_def, Option.some.injEq] at hh
      rw [← hh]
      rcases List.mem_cons.mp he with rfl | he
      · exact le_refl _
      · obtain ⟨y, ys, rfl⟩ : ∃ y ys, xs = y :: ys := by
          cases xs with
          | nil => simp at he
          | cons y ys => exact ⟨y, ys, rfl⟩
        have h1 : x.2.length ≤ y.2.length :=
          (List.chain'_cons'.mp hc).1 y rfl
        have h2 := ih (List.chain'_cons'.mp hc).2 y (by simp) e he
        omega

/-- When the queue is empty the whole reachable component has been
explored without meeting the goal, so the goal is unreachable. -/
theorem bfs_empty_unreach (cells : List Cell) (start goal : Cell)
    (v P : List Cell) (inv : BfsInv cells start goal [] v P) :
    ¬ Reachable cells start goal := by
  rintro ⟨qq, hq⟩
  have hpart : ∀ z ∈ v, z ∈ P := by
    intro z hz
    rcases inv.visPart z hz with h | ⟨π', h⟩
    · exact h
    · simp at h
  have hlast : qq.get? (qq.length - 1) = some goal := by
    rw [← List.getLast?_eq_get?]
    exact hq.2.1
  have hginv : goal ∈ v := frontier_closed cells start v P inv.startMem
    hpart inv.procClosed (qq.length - 1) qq goal ⟨hq.1, hq.2.2.1, hq.2.2.2⟩
    hlast
  exact inv.procGoal (hpart goal hginv)

/-- The invariant holds for the initial queue and visited set of
`_find_path_astar`. -/
theorem bfsInv_init (cells : List Cell) (start goal : Cell) :
    BfsInv cells start goal [(start, [start])] [start] [] := by
  refine ⟨?_, ?_, ?_, ?_, ?_, ?_, ?_, ?_, ?_, ?_⟩
  · intro e he
    simp only [List.mem_singleton] at he
    subst he
    exact ⟨⟨rfl, List.chain'_singleton _, by simp⟩, rfl, by simp⟩
  · intro e he
    simp only [List.mem_singleton] at he
    subst he
    intro qq i _ _
    simp only [List.length_singleton]
    omega
  · exact List.chain'_singleton _
  · intro e1 h1 e2 h2
    simp only [List.mem_singleton] at h1 h2
    subst h1
    subst h2
    omega
  · simp
  · intro z hz
    simp only [List.mem_singleton] at hz
    subst hz
    exact Or.inr ⟨[z], by simp⟩
  · simp
  · simp
  · simp
  · intro z hz
    simp only [List.mem_singleton] at hz
    exact Or.inl hz

/-- Soundness and minimality of the BFS loop: under the invariant, any
returned path is a valid path from start to goal and no valid path is
shorter. -/
theorem bfsAux_some_spec (cells : List Cell) (start goal : Cell) :
    ∀ (fuel : Nat) (q : List (Cell × List Cell)) (v P : List Cell)
      (p : List Cell), BfsInv cells start goal q v P →
      bfsAux cells goal fuel q v = some p →
      IsPathTo cells start goal p ∧
        ∀ qq, IsPathTo cells start goal qq → p.length ≤ qq.length := by
  intro fuel
  induction fuel with
  | zero =>
      intro q v P p _ h
      simp [bfsAux] at h
  | succ f ih =>
      intro q v P p inv h
      match q, inv with
      | [], _ => simp [bfsAux] at h
      | (c, π) :: rest, inv =>
          simp only [bfsAux] at h
          by_cases hgoal : c = goal
          · rw [if_pos hgoal] at h
            have hp : π = p := Option.some.inj h
            subst hp
            obtain ⟨hπvalid, hπlast, _⟩ :=
              inv.entriesOk (c, π) (List.mem_cons_self _ _)
            have htightC := inv.entriesTight (c, π) (List.mem_cons_self _ _)
            subst hgoal
            refine ⟨⟨hπvalid.1, hπlast, hπvalid.2.1, hπvalid.2.2⟩, ?_⟩
            intro qq hqq
            have hqlast : qq.get? (qq.length - 1) = some c := by
              rw [← List.getLast?_eq_get?]
              exact hqq.2.1
            have hqne : qq ≠ [] := by
              intro he
              rw [he] at hqlast
              simp at hqlast
            have := htightC qq (qq.length - 1)
              ⟨hqq.1, hqq.2.2.1, hqq.2.2.2⟩ hqlast
            have hlen1 : 1 ≤ qq.length := by
              cases qq with
              | nil => exact absurd rfl hqne
              | cons a l => simp
            simp only at this
            omega
          · rw [if_neg hgoal] at h
            obtain ⟨hπvalid, hπlast, _⟩ :=
              inv.entriesOk (c, π) (List.mem_cons_self _ _)
            have htightC := inv.entriesTight (c, π) (List.mem_cons_self _ _)
            obtain ⟨c1, c2, c3, c4, c5, c6, c7, c8, c9, c10, c11⟩ :=
              enqueueAll_spec cells start c π P hπvalid hπlast htightC
                (getNeighbors cells c) rest v (fun n hn => hn)
                (fun e he => inv.entriesOk e (List.mem_cons_of_mem _ he))
                (fun e he => inv.entriesTight e (List.mem_cons_of_mem _ he))
                (fun e he => ⟨chain'_head_le _ inv.sorted (c, π) rfl e
                    (List.mem_cons_of_mem _ he),
                  inv.spread (c, π) (List.mem_cons_self _ _) e
                    (List.mem_cons_of_mem _ he)⟩)
                (List.chain'_cons'.mp inv.sorted).2 inv.startMem
                (fun z hz => by
                  rcases inv.visPart z hz with hP | ⟨π', hπ'⟩
                  · exact Or.inl hP
                  · rcases List.mem_cons.mp hπ' with he | he
                    · exact Or.inr (Or.inl (congrArg Prod.fst he))
                    · exact Or.inr (Or.inr ⟨π', he⟩))
                inv.procClosed inv.nodupV inv.vBound
            have inv' : BfsInv cells start goal
                (enqueueAll π (getNeighbors cells c) rest v).1
                (enqueueAll π (getNeighbors cells c) rest v).2 (c :: P) := by
              refine ⟨c1, c2, c4, ?_, c5, ?_, ?_, ?_, c7, c8⟩
              · intro e1 h1 e2 h2
                have l1 := (c3 e1 h1).1
                have l2 := (c3 e2 h2).2
                omega
              · intro z hz
                rcases c6 z hz with hP | hc | he
                · exact Or.inl (List.mem_cons_of_mem _ hP)
                · exact Or.inl (by rw [hc]; exact List.mem_cons_self _ _)
                · exact Or.inr he
              · intro hmem
                rcases List.mem_cons.mp hmem with he | he
                · exact hgoal he.symm
                · exact inv.procGoal he
              · intro pc hpc m hm
                rcases List.mem_cons.mp hpc with he | he
                · rw [he] at hm
                  exact c9 m hm
                · exact c10 m (inv.procClosed pc he m hm)
            exact ih _ _ _ p inv' h

/-- A duplicate-free list contained in another list is no longer. -/
theorem nodup_subset_length_le (l l' : List Cell) (h : l.Nodup)
    (hs : ∀ z ∈ l, z ∈ l') : l.length ≤ l'.length := by
  have h1 : l.length = l.toFinset.card := (List.toFinset_card_of_nodup h).symm
  have h2 : l.toFinset ⊆ l'.toFinset := by
    intro z hz
    rw [List.mem_toFinset] at hz ⊢
    exact hs z hz
  have h3 := Finset.card_le_card h2
  have h4 := List.toFinset_card_le l'
  omega

/-- Completeness of the BFS loop: with enough fuel (measured by the
number of still-unvisited cells plus the queue length), a `none` result
means the goal is unreachable — the fuel never cuts the loop short. -/
theorem bfsAux_none_spec (cells : List Cell) (start goal : Cell) :
    ∀ (fuel : Nat) (q : List (Cell × List Cell)) (v P : List Cell),
      BfsInv cells start goal q v P →
      (800001 - v.length) + q.length ≤ fuel →
      bfsAux cells goal fuel q v = none →
      ¬ Reachable cells start goal := by
  intro fuel
  induction fuel with
  | zero =>
      intro q v P inv hμ h
      match q, inv with
      | [], inv => exact bfs_empty_unreach cells start goal v P inv
      | (c, π) :: rest, inv =>
          exfalso
          have hvle : v.length ≤ 800001 :=
            visited_length_le v start inv.nodupV inv.vBound
          simp only [List.length_cons] at hμ
          omega
  | succ f ih =>
      intro q v P inv hμ h
      match q, inv with
      | [], inv => exact bfs_empty_unreach cells start goal v P inv
      | (c, π) :: rest, inv =>
          simp only [bfsAux] at h
          by_cases hgoal : c = goal
          · rw [if_pos hgoal] at h
            exact absurd h (by simp)
          · rw [if_neg hgoal] at h
            obtain ⟨hπvalid, hπlast, _⟩ :=
              inv.entriesOk (c, π) (List.mem_cons_self _ _)
            have htightC := inv.entriesTight (c, π) (List.mem_cons_self _ _)
            obtain ⟨c1, c2, c3, c4, c5, c6, c7, c8, c9, c10, c11⟩ :=
              enqueueAll_spec cells start c π P hπvalid hπlast htightC
                (getNeighbors cells c) rest v (fun n hn => hn)
                (fun e he => inv.entriesOk e (List.mem_cons_of_mem _ he))
                (fun e he => inv.entriesTight e (List.mem_cons_of_mem _ he))
                (fun e he => ⟨chain'_head_le _ inv.sorted (c, π) rfl e
                    (List.mem_cons_of_mem _ he),
                  inv.spread (c, π) (List.mem_cons_self _ _) e
                    (List.mem_cons_of_mem _ he)⟩)
                (List.chain'_cons'.mp inv.sorted).2 inv.startMem
                (fun z hz => by
                  rcases inv.visPart z hz with hP | ⟨π', hπ'⟩
                  · exact Or.inl hP
                  · rcases List.mem_cons.mp hπ' with he | he
                    · exact Or.inr (Or.inl (congrArg Prod.fst he))
                    · exact Or.inr (Or.inr ⟨π', he⟩))
                inv.procClosed inv.nodupV inv.vBound
            have inv' : BfsInv cells start goal
                (enqueueAll π (getNeighbors cells c) rest v).1
                (enqueueAll π (getNeighbors cells c) rest v).2 (c :: P) := by
              refine ⟨c1, c2, c4, ?_, c5, ?_, ?_, ?_, c7, c8⟩
              · intro e1 h1 e2 h2
                have l1 := (c3 e1 h1).1
                have l2 := (c3 e2 h2).2
                omega
              · intro z hz
                rcases c6 z hz with hP | hc | he
                · exact Or.inl (List.mem_cons_of_mem _ hP)
                · exact Or.inl (by rw [hc]; exact List.mem_cons_self _ _)
                · exact Or.inr he
              · intro hmem
                rcases List.mem_cons.mp hmem with he | he
                · exact hgoal he.symm
                · exact inv.procGoal he
              · intro pc hpc m hm
                rcases List.mem_cons.mp hpc with he | he
                · rw [he] at hm
                  exact c9 m hm
                · exact c10 m (inv.procClosed pc he m hm)
            have hμ' : (800001 -
                (enqueueAll π (getNeighbors cells c) rest v).2.length) +
                (enqueueAll π (getNeighbors cells c) rest v).1.length ≤ f := by
              have hvle : (enqueueAll π (getNeighbors cells c) rest v).2.length
                  ≤ 800001 := visited_length_le _ start c7 c8
              have hmono : v.length ≤
                  (enqueueAll π (getNeighbors cells c) rest v).2.length :=
                nodup_subset_length_le v _ inv.nodupV c10
              simp only [List.length_cons] at hμ
              omega
            exact ih _ _ _ inv' hμ' h

/-- The BFS result is stable under extra fuel. -/
theorem bfsAux_some_mono (cells : List Cell) (goal : Cell) (k : Nat) :
    ∀ (fuel : Nat) (q : List (Cell × List Cell)) (v : List Cell)
      (p : List Cell), bfsAux cells goal fuel q v = some p →
      bfsAux cells goal (fuel + k) q v = some p := by
  intro fuel
  induction fuel with
  | zero =>
      intro q v p h
      simp [bfsAux] at h
  | succ f ih =>
      intro q v p h
      cases q with
      | nil => simp [bfsAux] at h
      | cons e rest =>
          obtain ⟨c, π⟩ := e
          have he : f + 1 + k = (f + k) + 1 := by omega
          rw [he]
          simp only [bfsAux] at h ⊢
          by_cases hg : c = goal
          · rw [if_pos hg] at h ⊢
            exact h
          · rw [if_neg hg] at h ⊢
            exact ih _ _ _ h

/-- C1 counterexample: on the empty board (single-segment snake at
(40, 40)) the far corner (960, 760) is reachable — the explicit L-shaped
free path witnesses it — yet `_find_path_astar` returns `None`, because
the breadth-first expansion exhausts the `max_iterations = 200` cap
before reaching a goal that is 41 steps away on a 500-cell grid.  The
claim that `None` is returned exactly when the goal is unreachable is
therefore false. -/
theorem shortest_path_cap_cex :
    findPathAstar [(40, 40)] (40, 40) (960, 760) = none ∧
    IsPathTo [(40, 40)] (40, 40) (960, 760) farCornerPath := by
  refine ⟨by decide, (isPathToB_iff _ _ _ _).mp (by decide)⟩

/-- C1 (amended): whenever the capped search returns a path, that path
starts at the head, ends at the goal, walks the 4-connected free-cell
graph, and is no longer than any valid path (its length is the true BFS
shortest-path distance); the uncapped reference search returns `None`
exactly when the goal is unreachable; and the capped search returns
`None` exactly when the goal is unreachable or the 200-iteration cap cut
the search short. -/
theorem shortest_path_amended (cells : List Cell) (start goal : Cell) :
    (∀ p, findPathAstar cells start goal = some p →
      IsPathTo cells start goal p ∧
        ∀ q, IsPathTo cells start goal q → p.length ≤ q.length) ∧
    (∀ p, findPathAstar cells start goal = some p →
      bfsFull cells start goal = some p) ∧
    (bfsFull cells start goal = none ↔ ¬ Reachable cells start goal) ∧
    (findPathAstar cells start goal = none ↔
      ¬ Reachable cells start goal ∨ CapHit cells start goal) := by
  have hsound : ∀ p, findPathAstar cells start goal = some p →
      IsPathTo cells start goal p ∧
        ∀ q, IsPathTo cells start goal q → p.length ≤ q.length :=
    fun p hp => bfsAux_some_spec cells start goal MAX_ITERATIONS
      [(start, [start])] [start] [] p (bfsInv_init cells start goal) hp
  have hsoundFull : ∀ p, bfsFull cells start goal = some p →
      IsPathTo cells start goal p :=
    fun p hp => (bfsAux_some_spec cells start goal FULL_FUEL
      [(start, [start])] [start] [] p (bfsInv_init cells start goal) hp).1
  have hmono : ∀ p, findPathAstar cells start goal = some p →
      bfsFull cells start goal = some p := by
    intro p hp
    have h := bfsAux_some_mono cells goal 799802 MAX_ITERATIONS
      [(start, [start])] [start] p hp
    exact h
  have hfullnone : bfsFull cells start goal = none →
      ¬ Reachable cells start goal := by
    intro h
    refine bfsAux_none_spec cells start goal FULL_FUEL [(start, [start])]
      [start] [] (bfsInv_init cells start goal) ?_ h
    simp [FULL_FUEL]
  refine ⟨hsound, hmono, ⟨hfullnone, ?_⟩, ⟨?_, ?_⟩⟩
  · intro hnr
    cases h : bfsFull cells start goal with
    | none => rfl
    | some p => exact absurd ⟨p, hsoundFull p h⟩ hnr
  · intro hnone
    by_cases hr : Reachable cells start goal
    · exact Or.inr ⟨hnone, hr⟩
    · exact Or.inl hr
  · rintro (hnr | hcap)
    · cases h : findPathAstar cells start goal with
      | none => rfl
      | some p => exact absurd ⟨p, (hsound p h).1⟩ hnr
    · exact hcap.1

/-- C1 witness: on the empty board the two-cell path to the adjacent
cell (80, 40) is returned, is a valid path, and no valid path is
shorter than its two cells. -/
theorem shortest_path_amended_witness :
    IsPathTo [(40, 40)] (40, 40) (80, 40) [(40, 40), (80, 40)] ∧
    ∀ q, IsPathTo [(40, 40)] (40, 40) (80, 40) q → 2 ≤ q.length := by
  have h := (shortest_path_amended [(40, 40)] (40, 40) (80, 40)).1
    [(40, 40), (80, 40)] (by decide)
  exact ⟨h.1, fun q hq => h.2 q hq⟩

end SnakeCore
